import Mathlib

/-!
Verification of `serial_buffer.py` (mesalib/.gitlab-ci/bare-metal/serial_buffer.py).

The script runs a concurrent pipeline: a reader thread pulls byte chunks from a
serial device (or a growing file) into `byte_queue`; a lines thread pulls chunks
from `byte_queue`, appends them to the destination file (device mode only),
splits the byte stream on newline bytes, decodes each completed line with
`errors="replace"`, prints it, and puts it into `line_queue`; `get_line`
dequeues from `line_queue`.

Shallow embedding conventions:
  * a Python `bytes` value is a `List Nat` of byte values;
  * a Python `str` value is a `List Nat` of Unicode code points;
  * a queue's lifetime content is a Lean list, in enqueue order; a blocking
    `get` on a queue that will never be filled again is modelled as `none`;
  * each thread loop becomes a function from the finite sequence of values it
    observes to the sequence of effects it performs.
-/

namespace SerialBuffer

/-- Payload of `byte_queue`: either a `bytes` chunk or the sentinel object
created by `self.sentinel = object()` in `__init__`. -/
inductive QItem where
  | chunk : List Nat → QItem
  | sentinel : QItem
deriving DecidableEq, Repr

/-- Payload of `line_queue`: either a decoded line (a `str`, as a list of code
points) or the same sentinel object. -/
inductive LItem where
  | line : List Nat → LItem
  | sentinel : LItem
deriving DecidableEq, Repr

/-- Python `==` on `byte_queue` payloads.  `bytes == bytes` compares contents;
comparing a `bytes` value with the plain `object()` sentinel falls back to
identity and is `False`; the sentinel is identical only to itself. -/
def pyEqQ : QItem → QItem → Bool
  | QItem.chunk a, QItem.chunk b => a == b
  | QItem.sentinel, QItem.sentinel => true
  | _, _ => false

/-- Python `==` on `line_queue` payloads (`str` vs the sentinel `object()`). -/
def pyEqL : LItem → LItem → Bool
  | LItem.line a, LItem.line b => a == b
  | LItem.sentinel, LItem.sentinel => true
  | _, _ => false

/-- Is a byte a UTF-8 continuation byte (`0x80..0xBF`)? -/
def isCont (b : Nat) : Bool := 0x80 ≤ b && b ≤ 0xBF

/-- The Unicode replacement character U+FFFD inserted by `errors="replace"`. -/
def repl : Nat := 0xFFFD

/-- CPython's `bytes.decode(errors="replace")`: UTF-8 decoding where each
maximal subpart of an ill-formed sequence is replaced by one U+FFFD
(W3C/Unicode "maximal subpart" policy, which CPython implements).  Input is a
list of byte values, output a list of code points; the function is total, so a
decode never raises. -/
def decode_replace : List Nat → List Nat
  | [] => []
  | b :: bs =>
    if b < 0x80 then
      b :: decode_replace bs
    else if 0xC2 ≤ b ∧ b ≤ 0xDF then
      match bs with
      | [] => [repl]
      | b1 :: bs1 =>
        if isCont b1 then
          ((b - 0xC0) * 0x40 + (b1 - 0x80)) :: decode_replace bs1
        else
          repl :: decode_replace (b1 :: bs1)
    else if 0xE0 ≤ b ∧ b ≤ 0xEF then
      match bs with
      | [] => [repl]
      | b1 :: bs1 =>
        if (if b = 0xE0 then 0xA0 else 0x80) ≤ b1 ∧
            b1 ≤ (if b = 0xED then 0x9F else 0xBF) then
          match bs1 with
          | [] => [repl]
          | b2 :: bs2 =>
            if isCont b2 then
              ((b - 0xE0) * 0x1000 + (b1 - 0x80) * 0x40 + (b2 - 0x80)) ::
                decode_replace bs2
            else
              repl :: decode_replace (b2 :: bs2)
        else
          repl :: decode_replace (b1 :: bs1)
    else if 0xF0 ≤ b ∧ b ≤ 0xF4 then
      match bs with
      | [] => [repl]
      | b1 :: bs1 =>
        if (if b = 0xF0 then 0x90 else 0x80) ≤ b1 ∧
            b1 ≤ (if b = 0xF4 then 0x8F else 0xBF) then
          match bs1 with
          | [] => [repl]
          | b2 :: bs2 =>
            if isCont b2 then
              match bs2 with
              | [] => [repl]
              | b3 :: bs3 =>
                if isCont b3 then
                  ((b - 0xF0) * 0x40000 + (b1 - 0x80) * 0x1000 +
                      (b2 - 0x80) * 0x40 + (b3 - 0x80)) :: decode_replace bs3
                else
                  repl :: decode_replace (b3 :: bs3)
            else
              repl :: decode_replace (b2 :: bs2)
        else
          repl :: decode_replace (b1 :: bs1)
    else
      repl :: decode_replace bs

/-- The inner `for b in bytes` loop of `serial_lines_thread_loop`: feed the
bytes of one chunk through the accumulator `line`, emitting a raw byte segment
(newline included, since `line.append(b)` runs before the newline test) each
time a newline byte is seen, and resetting the accumulator to empty.  Returns
the final accumulator and the emitted segments in order. -/
def serial_lines_step (acc : List Nat) : List Nat → List Nat × List (List Nat)
  | [] => (acc, [])
  | b :: bs =>
    if b = 10 then
      let r := serial_lines_step [] bs
      (r.1, (acc ++ [b]) :: r.2)
    else
      serial_lines_step (acc ++ [b]) bs

/-- Observable effects of one run of `serial_lines_thread_loop` over a finite
sequence of `byte_queue` items. -/
structure LinesOut where
  /-- Raw byte segments whose decodings are put into `line_queue` (and printed
  to the console, prefixed with a wall-clock timestamp and `self.prefix`). -/
  emitted : List (List Nat)
  /-- Bytes written (and flushed) to `self.f`, in order. -/
  fileOut : List Nat
  /-- The accumulator `line` when the loop stops or the observation ends. -/
  finalAcc : List Nat
  /-- Whether the sentinel was dequeued (the loop joined the read thread, put
  the sentinel into `line_queue` and did `break`). -/
  stopped : Bool
deriving DecidableEq, Repr

/-- `serial_lines_thread_loop`, as a function of the finite list of items it
dequeues from `byte_queue`.  On the sentinel (`bytes == self.sentinel`, which
by `pyEqQ` holds exactly for the sentinel) it stops, discarding the
accumulator.  On a chunk it first writes the chunk to the destination file
when `dev` is set, then runs the byte loop.  Console printing happens once per
emitted segment (the printed text is the timestamp, the prefix and the decoded
segment); it is determined by `emitted` and not tracked separately. -/
def serial_lines_thread_loop (dev : Bool) (acc : List Nat) :
    List QItem → LinesOut
  | [] => ⟨[], [], acc, false⟩
  | QItem.sentinel :: _ => ⟨[], [], acc, true⟩
  | QItem.chunk bs :: rest =>
    let w := if dev then bs else []
    let r := serial_lines_step acc bs
    let o := serial_lines_thread_loop dev r.1 rest
    ⟨r.2 ++ o.emitted, w ++ o.fileOut, o.finalAcc, o.stopped⟩

/-- The decoded lines put into `line_queue` by the lines thread
(`self.line_queue.put(line)` runs after `line = line.decode(errors="replace")`). -/
def linesPut (o : LinesOut) : List (List Nat) := o.emitted.map decode_replace

/-- Lifetime content of `line_queue`: one decoded line per emitted segment,
then the sentinel iff the lines thread saw the sentinel. -/
def lineChannel (dev : Bool) (items : List QItem) : List LItem :=
  (linesPut (serial_lines_thread_loop dev [] items)).map LItem.line ++
    (if (serial_lines_thread_loop dev [] items).stopped then [LItem.sentinel]
      else [])

/-- One result of `self.serial.read()` in the device read thread: a chunk of
bytes, or an exception raised by the read. -/
inductive ReadResult where
  | bytes : List Nat → ReadResult
  | readErr : ReadResult
deriving DecidableEq, Repr

/-- The `while True` loop of `serial_read_thread_loop`: each successful read
is put into `byte_queue`; the first raised exception puts the sentinel and
breaks, so nothing after it is ever read or enqueued. -/
def relay_reads : List ReadResult → List QItem
  | [] => []
  | ReadResult.bytes bs :: rest => QItem.chunk bs :: relay_reads rest
  | ReadResult.readErr :: _ => [QItem.sentinel]

/-- The bytes of `"Serial thread reading from %s\n"` with `%s` filled in
(`str.encode`, ASCII here): the greeting chunk. -/
def greeting (devName : List Nat) : List Nat :=
  [83, 101, 114, 105, 97, 108, 32, 116, 104, 114, 101, 97, 100, 32,
   114, 101, 97, 100, 105, 110, 103, 32, 102, 114, 111, 109, 32] ++
    devName ++ [10]

/-- `serial_read_thread_loop` as the lifetime content of `byte_queue` in
device mode: the greeting chunk first, then the relay loop's items. -/
def serial_read_thread_loop (g : List Nat) (reads : List ReadResult) :
    List QItem :=
  QItem.chunk g :: relay_reads reads

/-- The chunks successfully read from the device: every `ReadResult.bytes`
before the first error (nothing is read after the error). -/
def chunksBefore : List ReadResult → List (List Nat)
  | [] => []
  | ReadResult.bytes bs :: rest => bs :: chunksBefore rest
  | ReadResult.readErr :: _ => []

/-- Python `f.readline()` on a binary file: the bytes from the current
position up to and including the next newline, or up to end of file, or empty
at end of file. -/
def takeLine : List Nat → List Nat
  | [] => []
  | b :: bs => if b = 10 then [b] else b :: takeLine bs

/-- `readline` at position `pos` of file contents `c`. -/
def readlineFrom (c : List Nat) (pos : Nat) : List Nat := takeLine (c.drop pos)

/-- One observable action of the file-mode read loop. -/
inductive FEvent where
  | put : List Nat → FEvent
  | slept : Nat → FEvent
deriving DecidableEq, Repr

/-- One iteration of the `while True` loop of `serial_file_read_thread_loop`:
`line = self.f.readline()`; if non-empty it is put into `byte_queue` and the
file position advances past it, otherwise the thread does `time.sleep(0.1)`
(100 ms) and the position is unchanged.  `c` is the file's contents at this
iteration (another process may have appended to it since the last one). -/
def serial_file_read_step (c : List Nat) (pos : Nat) : FEvent × Nat :=
  let l := readlineFrom c pos
  if l = [] then (FEvent.slept 100, pos) else (FEvent.put l, pos + l.length)

/-- A finite observation of the file-mode read loop: one step per snapshot of
the file contents in `sched`, threading the file position. -/
def serial_file_read_run (pos : Nat) :
    List (List Nat) → List FEvent × Nat
  | [] => ([], pos)
  | c :: cs =>
    let s := serial_file_read_step c pos
    let r := serial_file_read_run s.2 cs
    (s.1 :: r.1, r.2)

/-- The chunks put into `byte_queue` by a sequence of file-mode events. -/
def putsOf : List FEvent → List (List Nat)
  | [] => []
  | FEvent.put bs :: es => bs :: putsOf es
  | FEvent.slept _ :: es => putsOf es

/-- The `byte_queue` items enqueued by a sequence of file-mode events. -/
def byteItemsOf (es : List FEvent) : List QItem := (putsOf es).map QItem.chunk

/-- `growsTo a b`: file `b` is file `a` with bytes appended (append-only
growth between two snapshots). -/
def growsTo (a b : List Nat) : Bool := b.take a.length == a

/-- A schedule of file snapshots is append-only starting from `c`. -/
def chainFrom (c : List Nat) : List (List Nat) → Bool
  | [] => true
  | d :: ds => growsTo c d && chainFrom d ds

/-- Last snapshot of a schedule, or `d` if the schedule is empty. -/
def lastD : List (List Nat) → List Nat → List Nat
  | [], d => d
  | c :: cs, _ => lastD cs c

/-- `get_line`: dequeue one value from `line_queue` (joining the lines thread
when the value is the sentinel, which does not change the returned value).
The queue's remaining lifetime content is passed explicitly; `none` models the
call blocking forever because the queue is empty and no producer remains. -/
def get_line : List LItem → Option (LItem × List LItem)
  | [] => none
  | x :: rest => some (x, rest)

/-- The mode string passed to `open` in `__init__`: read-write-truncate in
device mode, read-only in file-replay mode. -/
def open_mode (dev : Bool) : String := if dev then "wb+" else "rb"

/-- Predicate on an emitted segment: it ends with the newline byte and
contains no other newline byte. -/
def segOk (s : List Nat) : Bool :=
  (s.getLast? == some 10) && !(s.dropLast.contains 10)

theorem contains_eq_false_iff (l : List Nat) (a : Nat) :
    l.contains a = false ↔ a ∉ l := by
  rw [← Bool.not_eq_true]
  exact not_congr List.elem_iff

theorem serial_lines_step_nil (acc : List Nat) :
    serial_lines_step acc [] = (acc, []) := rfl

theorem serial_lines_step_cons_nl (acc bs : List Nat) :
    serial_lines_step acc (10 :: bs) =
      ((serial_lines_step [] bs).1,
        (acc ++ [10]) :: (serial_lines_step [] bs).2) := by
  simp [serial_lines_step]

theorem serial_lines_step_cons (acc : List Nat) (b : Nat) (bs : List Nat)
    (hb : ¬ b = 10) :
    serial_lines_step acc (b :: bs) = serial_lines_step (acc ++ [b]) bs := by
  simp [serial_lines_step, hb]

theorem serial_lines_step_concat (bs : List Nat) :
    ∀ acc : List Nat,
      ((serial_lines_step acc bs).2).flatten ++ (serial_lines_step acc bs).1 =
        acc ++ bs := by
  induction bs with
  | nil => intro acc; simp [serial_lines_step_nil]
  | cons b bs ih =>
    intro acc
    by_cases hb : b = 10
    · subst hb
      rw [serial_lines_step_cons_nl]
      simp only [List.flatten_cons]
      rw [List.append_assoc, ih []]
      simp
    · rw [serial_lines_step_cons acc b bs hb, ih (acc ++ [b])]
      simp

theorem serial_lines_step_no_nl (bs : List Nat) :
    ∀ acc : List Nat, 10 ∉ acc → 10 ∉ (serial_lines_step acc bs).1 := by
  induction bs with
  | nil => intro acc h; simpa [serial_lines_step_nil] using h
  | cons b bs ih =>
    intro acc h
    by_cases hb : b = 10
    · subst hb
      rw [serial_lines_step_cons_nl]
      exact ih [] (by simp)
    · rw [serial_lines_step_cons acc b bs hb]
      refine ih (acc ++ [b]) ?_
      simp only [List.mem_append, List.mem_singleton]
      rintro (h10 | h10)
      · exact h h10
      · exact hb h10.symm

theorem serial_lines_step_segOk (bs : List Nat) :
    ∀ acc : List Nat, 10 ∉ acc →
      ((serial_lines_step acc bs).2).all segOk = true := by
  induction bs with
  | nil => intro acc _; simp [serial_lines_step_nil]
  | cons b bs ih =>
    intro acc h
    by_cases hb : b = 10
    · subst hb
      rw [serial_lines_step_cons_nl]
      simp only [List.all_cons, Bool.and_eq_true]
      constructor
      · simp only [segOk, List.getLast?_concat, List.dropLast_concat,
          Bool.and_eq_true, beq_self_eq_true, Bool.not_eq_true', true_and]
        exact (contains_eq_false_iff acc 10).mpr h
      · exact ih [] (by simp)
    · rw [serial_lines_step_cons acc b bs hb]
      refine ih (acc ++ [b]) ?_
      simp only [List.mem_append, List.mem_singleton]
      rintro (h10 | h10)
      · exact h h10
      · exact hb h10.symm

theorem serial_lines_thread_loop_nil (dev : Bool) (acc : List Nat) :
    serial_lines_thread_loop dev acc [] = ⟨[], [], acc, false⟩ := rfl

theorem serial_lines_thread_loop_sent (dev : Bool) (acc : List Nat)
    (rest : List QItem) :
    serial_lines_thread_loop dev acc (QItem.sentinel :: rest) =
      ⟨[], [], acc, true⟩ := rfl

theorem serial_lines_thread_loop_chunk (dev : Bool) (acc bs : List Nat)
    (rest : List QItem) :
    serial_lines_thread_loop dev acc (QItem.chunk bs :: rest) =
      ⟨(serial_lines_step acc bs).2 ++
          (serial_lines_thread_loop dev (serial_lines_step acc bs).1 rest).emitted,
        (if dev then bs else []) ++
          (serial_lines_thread_loop dev (serial_lines_step acc bs).1 rest).fileOut,
        (serial_lines_thread_loop dev (serial_lines_step acc bs).1 rest).finalAcc,
        (serial_lines_thread_loop dev (serial_lines_step acc bs).1 rest).stopped⟩ :=
  rfl

theorem loop_chunks_spec (chunks : List (List Nat)) :
    ∀ (dev : Bool) (acc : List Nat),
      (serial_lines_thread_loop dev acc
          (chunks.map QItem.chunk ++ [QItem.sentinel])).emitted.flatten ++
        (serial_lines_thread_loop dev acc
          (chunks.map QItem.chunk ++ [QItem.sentinel])).finalAcc =
        acc ++ chunks.flatten ∧
      (serial_lines_thread_loop dev acc
          (chunks.map QItem.chunk ++ [QItem.sentinel])).stopped = true ∧
      (10 ∉ acc →
        10 ∉ (serial_lines_thread_loop dev acc
          (chunks.map QItem.chunk ++ [QItem.sentinel])).finalAcc ∧
        (serial_lines_thread_loop dev acc
          (chunks.map QItem.chunk ++ [QItem.sentinel])).emitted.all segOk = true) := by
  induction chunks with
  | nil =>
    intro dev acc
    simp [serial_lines_thread_loop_sent]
  | cons c cs ih =>
    intro dev acc
    simp only [List.map_cons, List.cons_append, serial_lines_thread_loop_chunk]
    obtain ⟨ih1, ih2, ih3⟩ := ih dev (serial_lines_step acc c).1
    refine ⟨?_, ih2, ?_⟩
    · simp only [List.flatten_append, List.flatten_cons, List.append_assoc]
      rw [ih1, ← List.append_assoc, serial_lines_step_concat]
      simp
    · intro hacc
      have hstep := serial_lines_step_no_nl c acc hacc
      obtain ⟨ih3a, ih3b⟩ := ih3 hstep
      refine ⟨ih3a, ?_⟩
      simp only [List.all_append, Bool.and_eq_true]
      exact ⟨serial_lines_step_segOk c acc hacc, ih3b⟩

theorem loop_stopped_iff (items : List QItem) :
    ∀ (dev : Bool) (acc : List Nat),
      (serial_lines_thread_loop dev acc items).stopped = true ↔
        QItem.sentinel ∈ items := by
  induction items with
  | nil => intro dev acc; simp [serial_lines_thread_loop_nil]
  | cons q rest ih =>
    intro dev acc
    cases q with
    | sentinel => simp [serial_lines_thread_loop_sent]
    | chunk bs =>
      rw [serial_lines_thread_loop_chunk]
      simp only [List.mem_cons]
      rw [ih dev (serial_lines_step acc bs).1]
      constructor
      · exact fun h => Or.inr h
      · rintro (h | h)
        · exact absurd h.symm (by simp)
        · exact h

theorem loop_fileOut_false (items : List QItem) :
    ∀ acc : List Nat,
      (serial_lines_thread_loop false acc items).fileOut = [] := by
  induction items with
  | nil => intro acc; rfl
  | cons q rest ih =>
    intro acc
    cases q with
    | sentinel => rfl
    | chunk bs =>
      rw [serial_lines_thread_loop_chunk]
      simpa using ih (serial_lines_step acc bs).1

theorem loop_fileOut_relay (reads : List ReadResult) :
    ∀ acc : List Nat,
      (serial_lines_thread_loop true acc (relay_reads reads)).fileOut =
        (chunksBefore reads).flatten := by
  induction reads with
  | nil => intro acc; rfl
  | cons r rest ih =>
    intro acc
    cases r with
    | readErr => rfl
    | bytes bs =>
      show (serial_lines_thread_loop true acc
        (QItem.chunk bs :: relay_reads rest)).fileOut = _
      rw [serial_lines_thread_loop_chunk]
      show bs ++ _ = bs ++ _
      rw [ih (serial_lines_step acc bs).1]

theorem read_thread_fileOut (g : List Nat) (reads : List ReadResult) :
    (serial_lines_thread_loop true []
        (serial_read_thread_loop g reads)).fileOut =
      g ++ (chunksBefore reads).flatten := by
  show (serial_lines_thread_loop true []
    (QItem.chunk g :: relay_reads reads)).fileOut = _
  rw [serial_lines_thread_loop_chunk]
  show g ++ _ = g ++ _
  rw [loop_fileOut_relay reads]

theorem relay_count_le_one (reads : List ReadResult) :
    (relay_reads reads).count QItem.sentinel ≤ 1 := by
  induction reads with
  | nil => simp [relay_reads]
  | cons r rest ih =>
    cases r with
    | readErr => simp [relay_reads]
    | bytes bs => simpa [relay_reads, List.count_cons] using ih

theorem relay_last (reads : List ReadResult) :
    (relay_reads reads).count QItem.sentinel = 0 ∨
      (relay_reads reads).getLast? = some QItem.sentinel := by
  induction reads with
  | nil => left; simp [relay_reads]
  | cons r rest ih =>
    cases r with
    | readErr => right; simp [relay_reads]
    | bytes bs =>
      cases ih with
      | inl h => left; simpa [relay_reads, List.count_cons] using h
      | inr h =>
        right
        have hne : relay_reads rest ≠ [] := by
          intro hnil
          rw [hnil] at h
          simp at h
        cases hr : relay_reads rest with
        | nil => exact absurd hr hne
        | cons x xs =>
          simp only [relay_reads, hr, List.getLast?_cons_cons]
          rw [hr] at h
          exact h

theorem relay_mem_iff (reads : List ReadResult) :
    QItem.sentinel ∈ relay_reads reads ↔ ReadResult.readErr ∈ reads := by
  induction reads with
  | nil => simp [relay_reads]
  | cons r rest ih =>
    cases r with
    | readErr => simp [relay_reads]
    | bytes bs => simp [relay_reads, ih]

theorem count_map_line (ls : List (List Nat)) :
    (ls.map LItem.line).count LItem.sentinel = 0 := by
  induction ls with
  | nil => rfl
  | cons l rest ih => simpa [List.count_cons] using ih

theorem lineChannel_count_le_one (dev : Bool) (items : List QItem) :
    (lineChannel dev items).count LItem.sentinel ≤ 1 := by
  unfold lineChannel
  cases h : (serial_lines_thread_loop dev [] items).stopped <;>
    simp [h, List.count_append, count_map_line, List.count_cons]

theorem lineChannel_last (dev : Bool) (items : List QItem) :
    (lineChannel dev items).count LItem.sentinel = 0 ∨
      (lineChannel dev items).getLast? = some LItem.sentinel := by
  unfold lineChannel
  cases h : (serial_lines_thread_loop dev [] items).stopped
  · left
    simp [h, List.count_append, count_map_line]
  · right
    simp only [if_pos rfl]
    exact List.getLast?_concat _

theorem lineChannel_mem_iff (dev : Bool) (items : List QItem) :
    LItem.sentinel ∈ lineChannel dev items ↔ QItem.sentinel ∈ items := by
  unfold lineChannel
  rw [← loop_stopped_iff items dev []]
  have hm : LItem.sentinel ∉
      (linesPut (serial_lines_thread_loop dev [] items)).map LItem.line := by
    intro hmem
    obtain ⟨l, -, hl⟩ := List.mem_map.mp hmem
    exact LItem.noConfusion hl
  cases h : (serial_lines_thread_loop dev [] items).stopped
  · simp [hm]
  · simp [hm]

theorem takeLine_append_drop (l : List Nat) :
    takeLine l ++ l.drop (takeLine l).length = l := by
  induction l with
  | nil => rfl
  | cons b bs ih =>
    by_cases hb : b = 10
    · subst hb; simp [takeLine]
    · simp only [takeLine, if_neg hb, List.length_cons, List.cons_append,
        List.drop_succ_cons]
      rw [ih]

theorem takeLine_length_le (l : List Nat) : (takeLine l).length ≤ l.length := by
  induction l with
  | nil => simp [takeLine]
  | cons b bs ih =>
    by_cases hb : b = 10
    · subst hb; simp [takeLine]
    · simp only [takeLine, if_neg hb, List.length_cons]
      omega

theorem takeLine_ne_nil (l : List Nat) (h : l ≠ []) : takeLine l ≠ [] := by
  cases l with
  | nil => exact absurd rfl h
  | cons b bs =>
    by_cases hb : b = 10
    · subst hb; simp [takeLine]
    · simp [takeLine, hb]

theorem growsTo_iff (a b : List Nat) :
    growsTo a b = true ↔ ∃ t, b = a ++ t := by
  constructor
  · intro h
    have ht : b.take a.length = a := by
      simpa [growsTo] using h
    refine ⟨b.drop a.length, ?_⟩
    conv_lhs => rw [← List.take_append_drop a.length b]
    rw [ht]
  · rintro ⟨t, rfl⟩
    simp [growsTo, List.take_left]

theorem growsTo_self (a : List Nat) : growsTo a a = true := by
  simp [growsTo, List.take_length]

theorem growsTo_trans (a b c : List Nat) (h1 : growsTo a b = true)
    (h2 : growsTo b c = true) : growsTo a c = true := by
  obtain ⟨t, rfl⟩ := (growsTo_iff a b).mp h1
  obtain ⟨u, rfl⟩ := (growsTo_iff _ c).mp h2
  exact (growsTo_iff _ _).mpr ⟨t ++ u, by simp⟩

theorem chain_lastD (cs : List (List Nat)) :
    ∀ c : List Nat, chainFrom c cs = true → growsTo c (lastD cs c) = true := by
  induction cs with
  | nil => intro c _; exact growsTo_self c
  | cons d ds ih =>
    intro c h
    simp only [chainFrom, Bool.and_eq_true] at h
    exact growsTo_trans c d (lastD ds d) h.1 (ih d h.2)

theorem serial_file_read_step_sleep (c : List Nat) (pos : Nat)
    (h : readlineFrom c pos = []) :
    serial_file_read_step c pos = (FEvent.slept 100, pos) := by
  simp [serial_file_read_step, h]

theorem serial_file_read_step_put (c : List Nat) (pos : Nat)
    (h : ¬ readlineFrom c pos = []) :
    serial_file_read_step c pos =
      (FEvent.put (readlineFrom c pos), pos + (readlineFrom c pos).length) := by
  simp [serial_file_read_step, h]

theorem serial_file_read_run_cons (pos : Nat) (c : List Nat)
    (cs : List (List Nat)) :
    serial_file_read_run pos (c :: cs) =
      ((serial_file_read_step c pos).1 ::
          (serial_file_read_run (serial_file_read_step c pos).2 cs).1,
        (serial_file_read_run (serial_file_read_step c pos).2 cs).2) := rfl

theorem file_run_length (sc : List (List Nat)) :
    ∀ pos : Nat, ((serial_file_read_run pos sc).1).length = sc.length := by
  induction sc with
  | nil => intro pos; rfl
  | cons c cs ih =>
    intro pos
    rw [serial_file_read_run_cons]
    simp [ih]

theorem byteItemsOf_no_sentinel (es : List FEvent) :
    QItem.sentinel ∉ byteItemsOf es := by
  intro h
  obtain ⟨bs, -, hbs⟩ := List.mem_map.mp h
  exact QItem.noConfusion hbs

theorem file_run_slice (sc : List (List Nat)) :
    ∀ (c0 : List Nat) (pos : Nat), chainFrom c0 sc = true →
      (putsOf (serial_file_read_run pos sc).1).flatten ++
          (lastD sc c0).drop (serial_file_read_run pos sc).2 =
        (lastD sc c0).drop pos := by
  induction sc with
  | nil => intro c0 pos _; simp [serial_file_read_run, putsOf, lastD]
  | cons c cs ih =>
    intro c0 pos h
    simp only [chainFrom, Bool.and_eq_true] at h
    rw [serial_file_read_run_cons]
    show (putsOf (_ :: _)).flatten ++ (lastD cs c).drop _ = (lastD cs c).drop pos
    by_cases hl : readlineFrom c pos = []
    · rw [serial_file_read_step_sleep c pos hl]
      show (putsOf (FEvent.slept 100 :: _)).flatten ++ _ = _
      simp only [putsOf]
      exact ih c pos h.2
    · rw [serial_file_read_step_put c pos hl]
      show (putsOf (FEvent.put _ :: _)).flatten ++ _ = _
      simp only [putsOf, List.flatten_cons, List.append_assoc]
      rw [ih c (pos + (readlineFrom c pos).length) h.2]
      -- it remains to show: line ++ cf.drop (pos + line.length) = cf.drop pos
      obtain ⟨t, hcf⟩ := (growsTo_iff c (lastD cs c)).mp (chain_lastD cs c h.2)
      have hpos : pos < c.length := by
        by_contra hge
        exact hl (by
          simp only [readlineFrom]
          rw [List.drop_eq_nil_of_le (by omega)]
          rfl)
      have hlen : (readlineFrom c pos).length ≤ c.length - pos := by
        have := takeLine_length_le (c.drop pos)
        simpa [readlineFrom] using this
      rw [hcf]
      rw [List.drop_append_of_le_length (by omega),
        List.drop_append_of_le_length (by omega)]
      rw [← List.append_assoc]
      congr 1
      have hkey := takeLine_append_drop (c.drop pos)
      simp only [readlineFrom]
      rw [List.drop_drop] at hkey
      exact hkey

/-- C1 counterexample: the Assembler's Lines already contain their terminating
newline, so re-joining the emitted Lines with a newline does not reproduce the
input.  Feeding the single chunk `b"a\n"` (and then the marker) emits exactly
the decoded line `"a\n"`; rejoining it with a newline yields `"a\n\n"`, while
the input minus the (empty) trailing partial line is `"a\n"`. -/
theorem c1_rejoin_counterexample :
    ((linesPut (serial_lines_thread_loop true []
          [QItem.chunk [97, 10], QItem.sentinel])).map (fun l => l ++ [10])
        ).flatten = [97, 10, 10] ∧
    (serial_lines_thread_loop true []
        [QItem.chunk [97, 10], QItem.sentinel]).finalAcc = [] ∧
    (([97, 10, 10] : List Nat) == [97, 10]) = false := by
  decide

/-- C1 (amended): for every finite chunk sequence followed by the end-of-stream
marker, the plain concatenation of the emitted Lines (each already
newline-terminated) equals the concatenation of the input chunks minus the
trailing unterminated partial line: the emitted byte segments concatenated with
the final accumulator give back the whole input, the loop stops on the marker,
and the discarded accumulator contains no newline (it really is an
unterminated partial line, and it is never emitted). -/
theorem c1_assembler_concat (dev : Bool) (chunks : List (List Nat)) :
    (serial_lines_thread_loop dev []
        (chunks.map QItem.chunk ++ [QItem.sentinel])).emitted.flatten ++
      (serial_lines_thread_loop dev []
        (chunks.map QItem.chunk ++ [QItem.sentinel])).finalAcc =
      chunks.flatten ∧
    (serial_lines_thread_loop dev []
        (chunks.map QItem.chunk ++ [QItem.sentinel])).stopped = true ∧
    ((serial_lines_thread_loop dev []
        (chunks.map QItem.chunk ++ [QItem.sentinel])).finalAcc).contains 10 =
      false := by
  obtain ⟨h1, h2, h3⟩ := loop_chunks_spec chunks dev []
  obtain ⟨h3a, -⟩ := h3 (by simp)
  refine ⟨by simpa using h1, h2, (contains_eq_false_iff _ 10).mpr h3a⟩

/-- C2 counterexample: the Line put into `line_queue` is the decoded bytes
since the previous newline INCLUDING the terminating newline byte
(`line.append(b)` runs before the newline test), so the chunks `b"ab"`,
`b"c\n"`, `b"de\n"` yield the Lines `"abc\n"`, `"de\n"`, not `"abc"`, `"de"`
as claimed. -/
theorem c2_excluding_newline_counterexample :
    linesPut (serial_lines_thread_loop false []
        [QItem.chunk [97, 98], QItem.chunk [99, 10],
          QItem.chunk [100, 101, 10]]) = [[97, 98, 99, 10], [100, 101, 10]] ∧
    (linesPut (serial_lines_thread_loop false []
        [QItem.chunk [97, 98], QItem.chunk [99, 10],
          QItem.chunk [100, 101, 10]]) ==
      [[97, 98, 99], [100, 101]]) = false := by
  decide

/-- C2 (amended): every Line produced by the Line Assembler is the decoded
text of the bytes since the previous newline, terminated by and INCLUDING the
newline byte (each emitted segment ends with the newline byte and contains no
earlier newline); concretely, the chunks `b"ab"`, `b"c\n"`, `b"de\n"` yield
exactly the Lines `"abc\n"`, `"de\n"` in that order. -/
theorem c2_lines_newline_terminated (dev : Bool) (chunks : List (List Nat)) :
    (serial_lines_thread_loop dev []
        (chunks.map QItem.chunk ++ [QItem.sentinel])).emitted.all segOk =
      true ∧
    linesPut (serial_lines_thread_loop false []
        [QItem.chunk [97, 98], QItem.chunk [99, 10],
          QItem.chunk [100, 101, 10]]) = [[97, 98, 99, 10], [100, 101, 10]] := by
  obtain ⟨-, -, h3⟩ := loop_chunks_spec chunks dev []
  exact ⟨(h3 (by simp)).2, by decide⟩

/-- C3 counterexample: the greeting chunk travels through `byte_queue` like
any other chunk, so in device mode `serial_lines_thread_loop` writes it to the
destination file.  With device name `"x"` and a source that errors on its
first read, no chunk is ever read from the device, yet the file receives
exactly the greeting bytes (and the greeting is also emitted on the line
channel, followed by the marker). -/
theorem c3_greeting_in_file_counterexample :
    (serial_lines_thread_loop true []
        (serial_read_thread_loop (greeting [120])
          [ReadResult.readErr])).fileOut = greeting [120] ∧
    (chunksBefore [ReadResult.readErr]).flatten = [] ∧
    ((greeting [120] : List Nat) == []) = false ∧
    lineChannel true (serial_read_thread_loop (greeting [120])
        [ReadResult.readErr]) =
      [LItem.line (decode_replace (greeting [120])), LItem.sentinel] := by
  decide

/-- C3 (amended): in device mode, after pipeline shutdown the destination
file's bytes equal the greeting chunk followed by the exact concatenation of
all chunks read from the device: the synthetic greeting chunk IS written to
the destination file (besides appearing in console and line-channel output). -/
theorem c3_file_bytes (g : List Nat) (reads : List ReadResult) :
    (serial_lines_thread_loop true []
        (serial_read_thread_loop g reads)).fileOut =
      g ++ (chunksBefore reads).flatten :=
  read_thread_fileOut g reads

/-- C4 counterexample: `get_line` consumes the sentinel from `line_queue`, and
nothing is ever enqueued afterwards, so a second call after end-of-stream
finds an empty queue and blocks forever (`none`) instead of returning
end-of-stream again.  The one-item queue `[sentinel]` is exactly the
`line_queue` left by a device source whose first read errors, after the one
greeting line has been consumed. -/
theorem c4_idempotence_counterexample :
    lineChannel true (serial_read_thread_loop (greeting [120])
        [ReadResult.readErr]) =
      [LItem.line (decode_replace (greeting [120])), LItem.sentinel] ∧
    get_line [LItem.sentinel] = some (LItem.sentinel, []) ∧
    get_line ([] : List LItem) = none := by
  decide

/-- C4 (amended): end-of-stream is terminal but not idempotent: in any queue
where the sentinel is enqueued at most once and as the last item (which the
pipeline guarantees), once `get_line` has returned the sentinel the remaining
queue is empty, and a subsequent `get_line` blocks forever (`none`) rather
than returning end-of-stream again.  (The `lines()` iterator stops at the
sentinel and never calls `get_line` again.) -/
theorem c4_eos_terminal (q : List LItem) (rest : List LItem)
    (hlast : q.getLast? = some LItem.sentinel)
    (hcount : q.count LItem.sentinel ≤ 1)
    (hget : get_line q = some (LItem.sentinel, rest)) :
    rest = [] ∧ get_line rest = none := by
  cases q with
  | nil => exact absurd hget (by simp [get_line])
  | cons x xs =>
    have hx : x = LItem.sentinel ∧ xs = rest := by
      simpa [get_line] using hget
    obtain ⟨rfl, rfl⟩ := hx
    cases xs with
    | nil => exact ⟨rfl, rfl⟩
    | cons y ys =>
      exfalso
      have hmem : LItem.sentinel ∈ y :: ys := by
        refine List.mem_of_mem_getLast? ?_
        rw [List.getLast?_cons_cons] at hlast
        exact hlast
      have hpos : 0 < (y :: ys).count LItem.sentinel :=
        List.count_pos_iff.mpr hmem
      have : (LItem.sentinel :: y :: ys).count LItem.sentinel =
          (y :: ys).count LItem.sentinel + 1 := by
        simp [List.count_cons]
      omega

/-- Witness for `c4_eos_terminal` at the concrete queue `[sentinel]`. -/
theorem c4_eos_terminal_witness :
    ([] : List LItem) = [] ∧ get_line ([] : List LItem) = none :=
  c4_eos_terminal [LItem.sentinel] [] (by decide) (by decide) rfl

/-- C5: in every execution at most one end-of-stream marker is enqueued per
channel and it is the last item of that channel: the device read thread puts
the sentinel into `byte_queue` at most once (exactly when a read errors) and
then only as the final item; the lines thread puts the sentinel into
`line_queue` at most once, only as the final item, and exactly when the byte
channel contained the sentinel. -/
theorem c5_marker_once_and_last :
    (∀ (g : List Nat) (reads : List ReadResult),
      (serial_read_thread_loop g reads).count QItem.sentinel ≤ 1 ∧
      ((serial_read_thread_loop g reads).count QItem.sentinel = 0 ∨
        (serial_read_thread_loop g reads).getLast? = some QItem.sentinel) ∧
      (QItem.sentinel ∈ serial_read_thread_loop g reads ↔
        ReadResult.readErr ∈ reads)) ∧
    (∀ (dev : Bool) (items : List QItem),
      (lineChannel dev items).count LItem.sentinel ≤ 1 ∧
      ((lineChannel dev items).count LItem.sentinel = 0 ∨
        (lineChannel dev items).getLast? = some LItem.sentinel) ∧
      (LItem.sentinel ∈ lineChannel dev items ↔ QItem.sentinel ∈ items)) := by
  constructor
  · intro g reads
    refine ⟨?_, ?_, ?_⟩
    · show (QItem.chunk g :: relay_reads reads).count QItem.sentinel ≤ 1
      have h := relay_count_le_one reads
      simpa [List.count_cons] using h
    · cases relay_last reads with
      | inl h =>
        left
        show (QItem.chunk g :: relay_reads reads).count QItem.sentinel = 0
        simpa [List.count_cons] using h
      | inr h =>
        right
        show (QItem.chunk g :: relay_reads reads).getLast? = some QItem.sentinel
        cases hr : relay_reads reads with
        | nil => rw [hr] at h; exact absurd h (by simp)
        | cons x xs =>
          rw [hr] at h
          rw [List.getLast?_cons_cons]
          exact h
    · show QItem.sentinel ∈ QItem.chunk g :: relay_reads reads ↔ _
      simp [List.mem_cons, relay_mem_iff]
  · intro dev items
    exact ⟨lineChannel_count_le_one dev items, lineChannel_last dev items,
      lineChannel_mem_iff dev items⟩

/-- Witness for `c5_marker_once_and_last` at a concrete run: a greeting and a
single failing read. -/
theorem c5_marker_once_and_last_witness :
    (serial_read_thread_loop [71] [ReadResult.readErr]).count QItem.sentinel ≤
      1 :=
  (c5_marker_once_and_last.1 [71] [ReadResult.readErr]).1

/-- C6: in file-replay mode the read loop performs exactly one action per
iteration forever (it never terminates), never enqueues the end-of-stream
marker, sleeps exactly 100 ms when `readline` returns nothing and leaves the
position unchanged, always reads a non-empty line when unread bytes are
present, and over any append-only sequence of file snapshots the concatenation
of all enqueued chunks is exactly the first `finalPos` bytes of the final
contents — each appended byte delivered at most once, in order, never
re-delivered. -/
theorem c6_file_replay :
    (∀ (pos : Nat) (sc : List (List Nat)),
      ((serial_file_read_run pos sc).1).length = sc.length) ∧
    (∀ es : List FEvent, QItem.sentinel ∉ byteItemsOf es) ∧
    (∀ (c : List Nat) (pos : Nat), readlineFrom c pos = [] →
      serial_file_read_step c pos = (FEvent.slept 100, pos)) ∧
    (∀ (c : List Nat) (pos : Nat), pos < c.length →
      0 < (readlineFrom c pos).length ∧
      serial_file_read_step c pos =
        (FEvent.put (readlineFrom c pos),
          pos + (readlineFrom c pos).length)) ∧
    (∀ (c0 : List Nat) (sc : List (List Nat)), chainFrom c0 sc = true →
      (putsOf (serial_file_read_run 0 sc).1).flatten ++
          (lastD sc c0).drop (serial_file_read_run 0 sc).2 = lastD sc c0) := by
  refine ⟨fun pos sc => file_run_length sc pos, byteItemsOf_no_sentinel,
    fun c pos h => serial_file_read_step_sleep c pos h, ?_, ?_⟩
  · intro c pos hpos
    have hne : readlineFrom c pos ≠ [] := by
      simp only [readlineFrom]
      apply takeLine_ne_nil
      intro hnil
      rw [List.drop_eq_nil_iff] at hnil
      omega
    exact ⟨List.length_pos.mpr hne, serial_file_read_step_put c pos hne⟩
  · intro c0 sc h
    have hs := file_run_slice sc c0 0 h
    simpa using hs

/-- Witness for `c6_file_replay`: an empty read sleeps 100 ms, and over the
append-only schedule `"h\n"` then `"h\nw\n"` the enqueued chunks concatenate
to the final file contents. -/
theorem c6_file_replay_witness :
    serial_file_read_step [104, 10] 2 = (FEvent.slept 100, 2) ∧
    (putsOf (serial_file_read_run 0 [[104, 10], [104, 10, 119, 10]]).1
        ).flatten ++
      (lastD [[104, 10], [104, 10, 119, 10]] []).drop
        (serial_file_read_run 0 [[104, 10], [104, 10, 119, 10]]).2 =
      lastD [[104, 10], [104, 10, 119, 10]] [] :=
  ⟨c6_file_replay.2.2.1 [104, 10] 2 (by decide),
    c6_file_replay.2.2.2.2 [] [[104, 10], [104, 10, 119, 10]] (by decide)⟩

/-- C7: a chunk beginning with a lone continuation byte decodes with the
replacement character U+FFFD in place of the invalid byte — `decode_replace`
is total, so the failure is recovered locally and never raised — and the
Assembler emits the resulting Line (replacement marker included) instead of
dropping it or failing. -/
theorem c7_decode_error_recovered (b : Nat) (rest : List Nat)
    (h1 : 0x80 ≤ b) (h2 : b ≤ 0xBF) :
    decode_replace (b :: rest) = repl :: decode_replace rest ∧
    ∀ dev : Bool,
      linesPut (serial_lines_thread_loop dev [] [QItem.chunk [b, 10]]) =
        [[repl, 10]] := by
  have hd : ∀ l : List Nat,
      decode_replace (b :: l) = repl :: decode_replace l := by
    intro l
    rw [decode_replace.eq_def]
    dsimp only
    rw [if_neg (by omega), if_neg (by omega), if_neg (by omega),
      if_neg (by omega)]
  refine ⟨hd rest, ?_⟩
  intro dev
  have hb10 : ¬ b = 10 := by omega
  have hstep : serial_lines_step [] [b, 10] = ([], [[b, 10]]) := by
    rw [serial_lines_step_cons [] b [10] hb10]
    simp only [List.nil_append]
    rw [serial_lines_step_cons_nl [b] []]
    rfl
  have hdec : decode_replace [b, 10] = [repl, 10] := by
    rw [hd [10]]
    decide
  rw [serial_lines_thread_loop_chunk dev [] [b, 10] [], hstep]
  simp [linesPut, serial_lines_thread_loop_nil, hdec]

/-- Witness for `c7_decode_error_recovered` at the lone continuation byte
`0x80`. -/
theorem c7_decode_error_recovered_witness :
    decode_replace [128, 10] = repl :: decode_replace [10] ∧
    linesPut (serial_lines_thread_loop true [] [QItem.chunk [128, 10]]) =
      [[repl, 10]] :=
  ⟨(c7_decode_error_recovered 128 [10] (by decide) (by decide)).1,
    (c7_decode_error_recovered 128 [] (by decide) (by decide)).2 true⟩

/-- C8: in file-replay mode the Assembler writes nothing to the file — its
file output is empty for every input — and `__init__` opens the file
read-only (`"rb"`), so the pipeline leaves the file it is reading unchanged. -/
theorem c8_file_mode_no_write (items : List QItem) (acc : List Nat) :
    (serial_lines_thread_loop false acc items).fileOut = [] ∧
    open_mode false = "rb" :=
  ⟨loop_fileOut_false items acc, rfl⟩

/-- C9: processing an empty chunk (as a device read returns on timeout) is a
complete no-op of the Assembler — no Line enqueued, nothing printed, nothing
written, accumulator unchanged — and the empty chunk is not mistaken for the
end-of-stream marker (`b"" == sentinel` is false). -/
theorem c9_empty_chunk_noop (dev : Bool) (acc : List Nat) (rest : List QItem) :
    serial_lines_thread_loop dev acc (QItem.chunk [] :: rest) =
      serial_lines_thread_loop dev acc rest ∧
    pyEqQ (QItem.chunk []) QItem.sentinel = false := by
  refine ⟨?_, rfl⟩
  cases dev <;> rfl

/-- C10: the sentinel `object()` compares equal (by Python `==`) to a channel
value exactly when that value is the sentinel itself: no chunk and no decoded
line can ever satisfy the marker tests in `serial_lines_thread_loop` or
`get_line`, so no data value can trigger a spurious shutdown. -/
theorem c10_sentinel_unique :
    (∀ x : QItem, pyEqQ x QItem.sentinel = true ↔ x = QItem.sentinel) ∧
    (∀ y : LItem, pyEqL y LItem.sentinel = true ↔ y = LItem.sentinel) := by
  constructor
  · intro x
    cases x with
    | chunk bs => simp [pyEqQ]
    | sentinel => simp [pyEqQ]
  · intro y
    cases y with
    | line l => simp [pyEqL]
    | sentinel => simp [pyEqL]

/-- Witness for `c10_sentinel_unique`: the sentinel equality test accepts the
sentinel itself. -/
theorem c10_sentinel_unique_witness :
    pyEqQ QItem.sentinel QItem.sentinel = true :=
  (c10_sentinel_unique.1 QItem.sentinel).mpr rfl

end SerialBuffer
